import Mathlib

/-!
# promptgenerator: prompt construction, response extraction and result cleanup

A shallow embedding of `helpers/promptgenerator.go` and of the text handling in
`main.go`.  Go strings are Lean `String`s (the texts handled here are UTF-8, and
splitting at the byte `\n` agrees with splitting at the character `\n`); Go's
`(string, error)` return is a pair whose second component is `none` for `nil`.
The HTTP exchange of `GenerateContent` (marshal, POST, read, unmarshal) is a
parameter of the embedding.
-/

namespace PromptGenerator

/-! ## Data model (`helpers/promptgenerator.go`) -/

/-- The three independent style flags. -/
structure Modes where
  Explanations : Bool
  Comments : Bool
  Documentation : Bool
  deriving DecidableEq, Repr

/-- One text part of a content block. -/
structure Part where
  Text : String
  deriving DecidableEq, Repr

/-- One content block of a request. -/
structure Content where
  Parts : List Part
  deriving DecidableEq, Repr

/-- Safety settings (never set by this program, omitted when empty). -/
structure SafetySetting where
  Category : String
  Threshold : String
  deriving DecidableEq, Repr

/-- The sampling parameters sent with each request. -/
structure GenerationConfig where
  StopSequences : List String
  Temperature : Float
  MaxOutputTokens : Int
  TopP : Float
  TopK : Int

/-- The request entity. -/
structure RequestBody where
  Contents : List Content
  SafetySettings : List SafetySetting
  GenerationConfig : GenerationConfig

/-- The anonymous struct of the field `Content` of a candidate. -/
structure CandidateContent where
  Parts : List Part
  deriving DecidableEq, Repr

/-- One candidate answer. -/
structure Candidate where
  Content : CandidateContent
  deriving DecidableEq, Repr

/-- The decoded response entity. -/
structure ResponseBody where
  Candidates : List Candidate
  deriving DecidableEq, Repr

/-- The client: endpoint URL and stored sampling parameters. -/
structure PromptHandler where
  url : String
  temperature : Float
  topP : Float
  topK : Int
  maxOutputTokens : Int

/-- Constructor of the client, `NewPromptHandler`. -/
def NewPromptHandler (baseUrl apiKey : String) (temperature topP : Float)
    (maxOutputTokens topK : Int) : PromptHandler :=
  { url := baseUrl ++ apiKey
    temperature := temperature
    maxOutputTokens := maxOutputTokens
    topP := topP
    topK := topK }

/-! ## `strings.Split` and `strings.Join` with a one-character separator -/

/-- Pieces of a character list between occurrences of `sep`; never empty, and
`[[]]` for the empty list, as `strings.Split` does. -/
def splitOnChar (sep : Char) : List Char → List (List Char)
  | [] => [[]]
  | c :: t =>
    if c = sep then [] :: splitOnChar sep t
    else
      match splitOnChar sep t with
      | [] => [[c]]
      | l :: ls => (c :: l) :: ls

/-- Model of `strings.Split(s, sep)` for a separator of one character. -/
def Split (s : String) (sep : Char) : List String :=
  (splitOnChar sep s.data).map String.mk

/-- Model of `strings.Join(elems, sep)`. -/
def Join : List String → String → String
  | [], _ => ""
  | [a], _ => a
  | a :: b :: r, sep => a ++ sep ++ Join (b :: r) sep

/-! ## `GenerateContent` and `removeFirstLine` -/

/-- The comments instruction sentence (without its newline). -/
def commentsInstruction : String :=
  "Include detailed in-code comments whenever applicable."

/-- The documentation instruction sentence (without its newline). -/
def documentationInstruction : String :=
  "Attach extensive documentation for generated code as well as for used dependencies or modules. Include it below code and DO comment these lines out."

/-- The explanations instruction sentence (without its newline). -/
def explanationsInstruction : String :=
  "Add detailed explanation on how to use code and what it does. Include them below code and DO comment these lines out."

/-- The `instructions` variable of `GenerateContent` after its three `if`s:
each enabled sentence is put in front of what was built so far. -/
def instructions (modes : Modes) : String :=
  let i0 := ""
  let i1 := if modes.Comments then commentsInstruction ++ "\n" ++ i0 else i0
  let i2 := if modes.Documentation then documentationInstruction ++ "\n" ++ i1 else i1
  let i3 := if modes.Explanations then explanationsInstruction ++ "\n" ++ i2 else i2
  i3

/-- The reassigned `prompt` variable of `GenerateContent`: `"%s.\n\n%s"`. -/
def composedPrompt (prompt : String) (modes : Modes) : String :=
  prompt ++ ".\n\n" ++ instructions modes

/-- The `requestBody` value built by `GenerateContent`. -/
def requestBody (p : PromptHandler) (actor prompt : String) (modes : Modes) : RequestBody :=
  { Contents := [{ Parts := [{ Text := "As a " ++ actor ++ ", " ++ composedPrompt prompt modes }] }]
    SafetySettings := []
    GenerationConfig :=
      { StopSequences := []
        Temperature := p.temperature
        MaxOutputTokens := p.maxOutputTokens
        TopP := p.topP
        TopK := p.topK } }

/-- Drops the first line of a text, `removeFirstLine`. -/
def removeFirstLine (code : String) : String :=
  let lines := Split code '\n'
  if lines.length > 1 then Join (lines.drop 1) "\n" else ""

/-- The tail of `GenerateContent`, from the check of the decoded response on. -/
def extractResult (responseBody : ResponseBody) : String × Option String :=
  match responseBody.Candidates with
  | [] => ("", some "no valid text found in response")
  | c :: _ =>
    match c.Content.Parts with
    | [] => ("", some "no valid text found in response")
    | part :: _ => (removeFirstLine part.Text, none)

/-- The method `GenerateContent`.  `exchange url body` stands for the marshal,
POST, read and unmarshal steps: it yields an error or the decoded response. -/
def GenerateContent (exchange : String → RequestBody → Except String ResponseBody)
    (p : PromptHandler) (actor prompt : String) (modes : Modes) : String × Option String :=
  match exchange p.url (requestBody p actor prompt modes) with
  | .error err => ("", some err)
  | .ok responseBody => extractResult responseBody

/-! ## The orchestrating layer (`main.go`) -/

/-- The step of `main` that attaches file content to the prompt. -/
def attachContent (prompt content : String) : String :=
  if content ≠ "" then prompt ++ ".\nContent: \n\n" ++ content else prompt

/-! ## `regexp`, the fragment used by `cleanResultText`

The pattern `(?m)^```go$|^```$|^\s*$` is built from literal characters, the
line anchors of multi-line mode, the greedy repetition `\s*`, concatenation and
alternation.  Matching is leftmost-first: the candidates of a pattern at a
position are listed in the order in which a backtracking matcher tries them,
and the first one is the match.  The replacement is the empty string, so a match
of the empty string changes nothing and the library's rule for an empty match
next to a previous match has no effect on the result.
-/

/-- A position in the searched text: the character before it (`none` at the
start of the text) and the text from it on. -/
structure Cursor where
  before : Option Char
  rest : List Char
  deriving DecidableEq, Repr

/-- Regular expressions of the fragment. -/
inductive Regex where
  | char (c : Char)
  | spaceStar
  | beginLine
  | endLine
  | cat (a b : Regex)
  | alt (a b : Regex)
  deriving Repr

/-- The class `\s` of Go's `regexp`: tab, newline, form feed, carriage return, space. -/
def isSpace (c : Char) : Bool :=
  c = '\t' || c = '\n' || c = '\x0c' || c = '\r' || c = ' '

/-- Candidates of the greedy `\s*`: the longest run first, the empty run last. -/
def spaceStarEnds : Option Char → List Char → List Cursor
  | before, [] => [⟨before, []⟩]
  | before, c :: t =>
    if isSpace c then spaceStarEnds (some c) t ++ [⟨before, c :: t⟩]
    else [⟨before, c :: t⟩]

/-- Places where a match of the pattern that starts at the cursor can end, in
priority order. -/
def Regex.ends : Regex → Cursor → List Cursor
  | .char c, cur =>
    match cur.rest with
    | [] => []
    | d :: t => if d = c then [⟨some d, t⟩] else []
  | .spaceStar, cur => spaceStarEnds cur.before cur.rest
  | .beginLine, cur =>
    if cur.before = none ∨ cur.before = some '\n' then [cur] else []
  | .endLine, cur =>
    match cur.rest with
    | [] => [cur]
    | d :: _ => if d = '\n' then [cur] else []
  | .cat a b, cur => (a.ends cur).flatMap b.ends
  | .alt a b, cur => a.ends cur ++ b.ends cur

/-- The leftmost-first match of the pattern at the cursor, if there is one. -/
def Regex.matchAt (re : Regex) (cur : Cursor) : Option Cursor :=
  (re.ends cur).head?

/-- Concatenation of a list of patterns followed by a last one. -/
def Regex.seq : List Regex → Regex → Regex
  | [], last => last
  | r :: rs, last => .cat r (Regex.seq rs last)

/-- The loop of `ReplaceAllString(src, "")`: the text is searched from left to
right; a match that is not empty is left out and the search goes on at its end,
otherwise the character at the position is copied and the search goes on after
it.  `fuel` bounds the number of steps; `rest.length + 1` is enough. -/
def deleteMatches (re : Regex) : Nat → Cursor → List Char
  | 0, cur => cur.rest
  | fuel + 1, cur =>
    match re.matchAt cur with
    | some stop =>
      if stop.rest.length < cur.rest.length then deleteMatches re fuel stop
      else
        match cur.rest with
        | [] => []
        | c :: t => c :: deleteMatches re fuel ⟨some c, t⟩
    | none =>
      match cur.rest with
      | [] => []
      | c :: t => c :: deleteMatches re fuel ⟨some c, t⟩

/-- Model of `re.ReplaceAllString(src, "")`. -/
def ReplaceAllStringEmpty (re : Regex) (src : String) : String :=
  ⟨deleteMatches re (src.length + 1) ⟨none, src.data⟩⟩

/-- The compiled pattern `(?m)^```go$|^```$|^\s*$`. -/
def cleanPattern : Regex :=
  .alt
    (.alt
      (Regex.seq [.beginLine, .char '\x60', .char '\x60', .char '\x60', .char 'g', .char 'o'] .endLine)
      (Regex.seq [.beginLine, .char '\x60', .char '\x60', .char '\x60'] .endLine))
    (Regex.seq [.beginLine, .spaceStar] .endLine)

/-- The function `cleanResultText` of `main.go`. -/
def cleanResultText (text : String) : String :=
  ReplaceAllStringEmpty cleanPattern text

/-! ## Vocabulary of the statements and proofs -/

/-- The enabled instruction sentences, top to bottom. -/
def enabledInstructions (modes : Modes) : List String :=
  (if modes.Explanations then [explanationsInstruction] else [])
    ++ (if modes.Documentation then [documentationInstruction] else [])
    ++ (if modes.Comments then [commentsInstruction] else [])

/-- The last character of `w`, or `b` when `w` is empty. -/
def lastOr (b : Option Char) : List Char → Option Char
  | [] => b
  | c :: t => lastOr (some c) t

/-- Characters of a line that `\s` matches: space, tab, form feed, carriage return. -/
def isBlank (c : Char) : Bool :=
  c = ' ' || c = '\t' || c = '\x0c' || c = '\r'

/-- Ends of the third alternative after its `^`: the ends of `\s*` that stand
at an end of line. -/
def blankEnds (b : Option Char) (s : List Char) : List Cursor :=
  (spaceStarEnds b s).flatMap Regex.endLine.ends

/-- What follows a line: nothing, or a newline and further text. -/
def LineEnd (r : List Char) : Prop := r = [] ∨ ∃ t, r = '\n' :: t

/-- The deletion loop on the cleanup pattern with the fuel it is started with. -/
def cleanFrom (cur : Cursor) : List Char :=
  deleteMatches cleanPattern (cur.rest.length + 1) cur

/-- A line that the cleanup pattern matches: a bare fence, a fence tagged `go`,
or a line of blanks only (the empty line included). -/
def droppedLine (l : List Char) : Bool :=
  l == "```".data || l == "```go".data || l.all isBlank

/-- The lines of a text that are not empty. -/
def nonEmptyLines (s : List Char) : List (List Char) :=
  (splitOnChar '\n' s).filter (fun l => !l.isEmpty)

/-- The cursor is at the start of the text or just after a newline. -/
def AtLineStart (b : Option Char) : Prop := b = none ∨ b = some '\n'

/-! ## Lemmas on splitting and joining -/

theorem splitOnChar_ne_nil (sep : Char) (s : List Char) : splitOnChar sep s ≠ [] := by
  induction s with
  | nil => simp [splitOnChar]
  | cons c t ih =>
    unfold splitOnChar
    split
    · simp
    · split <;> simp

theorem splitOnChar_cons_ne (sep c : Char) (t : List Char) (h : c ≠ sep) :
    splitOnChar sep (c :: t) =
      (c :: (splitOnChar sep t).headD []) :: (splitOnChar sep t).tail := by
  have hne := splitOnChar_ne_nil sep t
  conv_lhs => unfold splitOnChar
  rw [if_neg h]
  cases hs : splitOnChar sep t with
  | nil => exact absurd hs hne
  | cons l ls => simp

theorem splitOnChar_append_sep (sep : Char) (l t : List Char) (h : sep ∉ l) :
    splitOnChar sep (l ++ sep :: t) = l :: splitOnChar sep t := by
  induction l with
  | nil => simp [splitOnChar]
  | cons c l ih =>
    have hc : c ≠ sep := fun e => h (by simp [e])
    have hl : sep ∉ l := fun e => h (by simp [e])
    rw [List.cons_append, splitOnChar_cons_ne sep c _ hc]
    simp [ih hl]

theorem splitOnChar_of_not_mem (sep : Char) (l : List Char) (h : sep ∉ l) :
    splitOnChar sep l = [l] := by
  induction l with
  | nil => simp [splitOnChar]
  | cons c l ih =>
    have hc : c ≠ sep := fun e => h (by simp [e])
    have hl : sep ∉ l := fun e => h (by simp [e])
    rw [splitOnChar_cons_ne sep c _ hc]
    simp [ih hl]

theorem splitOnChar_append (sep : Char) (x y : List Char) :
    splitOnChar sep (x ++ sep :: y) = splitOnChar sep x ++ splitOnChar sep y := by
  induction x with
  | nil => simp [splitOnChar]
  | cons c x ih =>
    by_cases hc : c = sep
    · subst hc
      simp [splitOnChar, ih]
    · rw [List.cons_append, splitOnChar_cons_ne sep c _ hc, splitOnChar_cons_ne sep c _ hc]
      have hne := splitOnChar_ne_nil sep x
      cases hs : splitOnChar sep x with
      | nil => exact absurd hs hne
      | cons l ls => simp [ih, hs]

theorem Join_split (t : List Char) :
    Join ((splitOnChar '\n' t).map String.mk) "\n" = ⟨t⟩ := by
  induction t with
  | nil => simp [splitOnChar, Join]
  | cons c t ih =>
    have hne := splitOnChar_ne_nil '\n' t
    by_cases hc : c = '\n'
    · subst hc
      cases hs : splitOnChar '\n' t with
      | nil => exact absurd hs hne
      | cons l ls =>
        rw [hs] at ih
        simp only [splitOnChar, if_true, hs, List.map_cons, Join]
        simp only [List.map_cons] at ih
        rw [ih]
        apply String.ext
        simp
    · rw [splitOnChar_cons_ne _ c _ hc]
      cases hs : splitOnChar '\n' t with
      | nil => exact absurd hs hne
      | cons l ls =>
        rw [hs] at ih
        simp only [List.headD_cons, List.tail_cons, List.map_cons] at ih ⊢
        cases ls with
        | nil =>
          simp only [List.map_nil, Join] at ih ⊢
          have := congrArg String.data ih
          simp at this
          subst this
          rfl
        | cons l2 ls =>
          simp only [List.map_cons, Join] at ih ⊢
          have := congrArg String.data ih
          apply String.ext
          simp at this ⊢
          exact this

theorem GenerateContent_ok (exchange : String → RequestBody → Except String ResponseBody)
    (p : PromptHandler) (actor prompt : String) (modes : Modes) (rb : ResponseBody)
    (h : exchange p.url (requestBody p actor prompt modes) = .ok rb) :
    GenerateContent exchange p actor prompt modes = extractResult rb := by
  simp [GenerateContent, h]

/-! ## Claims on `GenerateContent` and `removeFirstLine` -/

/-- C1: the single part text of the request built by `GenerateContent` is
`"As a " ++ actor ++ ", " ++ task ++ ".\n\n" ++ E ++ D ++ C`, each of `E`, `D`,
`C` being its instruction sentence plus one newline when its flag is set and
empty otherwise; with all flags off the composed prompt is `task ++ ".\n\n"`. -/
theorem requestBody_text (p : PromptHandler) (actor task : String) (modes : Modes) :
    (requestBody p actor task modes).Contents =
        [{ Parts := [{ Text := "As a " ++ actor ++ ", " ++ task ++ ".\n\n"
            ++ (if modes.Explanations then explanationsInstruction ++ "\n" else "")
            ++ (if modes.Documentation then documentationInstruction ++ "\n" else "")
            ++ (if modes.Comments then commentsInstruction ++ "\n" else "") }] }]
      ∧ composedPrompt task ⟨false, false, false⟩ = task ++ ".\n\n" := by
  constructor
  · obtain ⟨e, c, d⟩ := modes
    cases e <;> cases c <;> cases d <;>
      simp [requestBody, composedPrompt, instructions, String.append_assoc]
  · simp [composedPrompt, instructions]

/-- C3: `removeFirstLine` strips exactly the first line: for `s` without a
newline, `removeFirstLine (s ++ "\n" ++ t) = t`, and `removeFirstLine s = ""`. -/
theorem removeFirstLine_spec (s t : String) (h : '\n' ∉ s.data) :
    removeFirstLine (s ++ "\n" ++ t) = t ∧ removeFirstLine s = "" := by
  constructor
  · have hs : splitOnChar '\n' (s ++ "\n" ++ t).data = s.data :: splitOnChar '\n' t.data := by
      have : (s ++ "\n" ++ t).data = s.data ++ '\n' :: t.data := by simp
      rw [this, splitOnChar_append_sep _ _ _ h]
    have hne := splitOnChar_ne_nil '\n' t.data
    have hlen : 0 < (splitOnChar '\n' t.data).length := List.length_pos.mpr hne
    simp only [removeFirstLine, Split, hs, List.map_cons, List.length_cons, List.length_map,
      List.drop_succ_cons, List.drop_zero]
    rw [if_pos (by omega), Join_split]
  · simp [removeFirstLine, Split, splitOnChar_of_not_mem _ _ h]

theorem removeFirstLine_spec_witness :
    removeFirstLine ("```python" ++ "\n" ++ "real text") = "real text"
      ∧ removeFirstLine "```python" = "" :=
  removeFirstLine_spec "```python" "real text" (by decide)

theorem Split_append_newline (x y : String) :
    Split (x ++ "\n" ++ y) '\n' = Split x '\n' ++ Split y '\n' := by
  have : (x ++ "\n" ++ y).data = x.data ++ '\n' :: y.data := by simp
  simp [Split, this, splitOnChar_append]

/-- C2 (as stated, refuted): with only the comments flag set and task `"Q"`, the
comments sentence does not occur anywhere before the task text. -/
theorem instruction_before_task_fails :
    ¬ ∃ pre mid post : String,
      composedPrompt "Q" ⟨false, true, false⟩
        = pre ++ commentsInstruction ++ mid ++ "Q" ++ post := by
  rintro ⟨pre, mid, post, h⟩
  have hd := congrArg String.data h
  have hL : (composedPrompt "Q" ⟨false, true, false⟩).data
      = 'Q' :: (".\n\n" ++ commentsInstruction ++ "\n").data := by decide
  rw [hL] at hd
  simp only [String.data_append] at hd
  have hlen : 1 ≤ (pre.data ++ commentsInstruction.data ++ mid.data).length := by
    have : commentsInstruction.data.length = 54 := by decide
    simp only [List.length_append, this]
    omega
  have hmem : 'Q' ∈ ('Q' :: (".\n\n".data ++ commentsInstruction.data ++ "\n".data)).drop
      (pre.data ++ commentsInstruction.data ++ mid.data).length := by
    rw [hd]
    have : pre.data ++ commentsInstruction.data ++ mid.data ++ "Q".data ++ post.data
        = (pre.data ++ commentsInstruction.data ++ mid.data) ++ ("Q".data ++ post.data) := by
      simp
    rw [this, List.drop_left]
    simp
  obtain ⟨n, hn⟩ : ∃ n, (pre.data ++ commentsInstruction.data ++ mid.data).length = n + 1 :=
    ⟨_, (Nat.sub_add_cancel hlen).symm⟩
  rw [hn, List.drop_succ_cons] at hmem
  have hsub := List.mem_of_mem_drop hmem
  revert hsub
  decide

set_option maxRecDepth 100000 in
/-- C2 (amended): the composed prompt starts with the task text and a full
stop, then has a blank line, then the enabled instruction sentences, one per
line, in the order explanations, documentation, comments, and ends with a
newline. -/
theorem composedPrompt_lines (task : String) (modes : Modes) :
    Split (composedPrompt task modes) '\n'
      = Split (task ++ ".") '\n' ++ [""] ++ enabledInstructions modes ++ [""] := by
  have h : ∀ r : String, task ++ ".\n\n" ++ r = (task ++ ".") ++ "\n" ++ ("\n" ++ r) := by
    intro r
    apply String.ext
    simp
  obtain ⟨e, c, d⟩ := modes
  cases e <;> cases c <;> cases d <;>
    simp only [composedPrompt, instructions, enabledInstructions, h, Split_append_newline,
      if_true, if_false, Bool.false_eq_true, List.append_assoc, List.append_cancel_left_eq] <;>
    decide

/-- C4: once the response is decoded, `GenerateContent` fails exactly when there
is no candidate or the first candidate has no part; then the message is
`"no valid text found in response"` and the text is empty; otherwise there is no
error. -/
theorem GenerateContent_error_iff
    (exchange : String → RequestBody → Except String ResponseBody)
    (p : PromptHandler) (actor prompt : String) (modes : Modes) (rb : ResponseBody)
    (h : exchange p.url (requestBody p actor prompt modes) = .ok rb) :
    ((GenerateContent exchange p actor prompt modes).2 ≠ none ↔
        (rb.Candidates = [] ∨ ∃ c cs, rb.Candidates = c :: cs ∧ c.Content.Parts = []))
      ∧ ((GenerateContent exchange p actor prompt modes).2 ≠ none →
          GenerateContent exchange p actor prompt modes
            = ("", some "no valid text found in response")) := by
  rw [GenerateContent_ok exchange p actor prompt modes rb h]
  obtain ⟨cands⟩ := rb
  cases cands with
  | nil => simp [extractResult]
  | cons c cs =>
    obtain ⟨⟨parts⟩⟩ := c
    cases parts with
    | nil => simp [extractResult]
    | cons part ps => simp [extractResult]

theorem GenerateContent_error_iff_witness :
    ((GenerateContent (fun _ _ => .ok ⟨[⟨⟨[]⟩⟩, ⟨⟨[⟨"x\ny"⟩]⟩⟩]⟩)
          (NewPromptHandler "u" "k" 1 1 1 1) "a" "t" ⟨false, false, false⟩).2 ≠ none ↔
        ((⟨[⟨⟨[]⟩⟩, ⟨⟨[⟨"x\ny"⟩]⟩⟩]⟩ : ResponseBody).Candidates = [] ∨
          ∃ c cs, (⟨[⟨⟨[]⟩⟩, ⟨⟨[⟨"x\ny"⟩]⟩⟩]⟩ : ResponseBody).Candidates = c :: cs ∧ c.Content.Parts = []))
      ∧ ((GenerateContent (fun _ _ => .ok ⟨[⟨⟨[]⟩⟩, ⟨⟨[⟨"x\ny"⟩]⟩⟩]⟩)
          (NewPromptHandler "u" "k" 1 1 1 1) "a" "t" ⟨false, false, false⟩).2 ≠ none →
          GenerateContent (fun _ _ => .ok ⟨[⟨⟨[]⟩⟩, ⟨⟨[⟨"x\ny"⟩]⟩⟩]⟩)
              (NewPromptHandler "u" "k" 1 1 1 1) "a" "t" ⟨false, false, false⟩
            = ("", some "no valid text found in response")) :=
  GenerateContent_error_iff _ _ _ _ _ _ rfl

/-- C5: two decoded responses whose first candidate's first part carries the
same text give the same result, `removeFirstLine` of that text with no error,
whatever further candidates and parts they hold. -/
theorem GenerateContent_first_part_only
    (ex1 ex2 : String → RequestBody → Except String ResponseBody)
    (p : PromptHandler) (actor prompt : String) (modes : Modes)
    (text : String) (ps1 ps2 : List Part) (cs1 cs2 : List Candidate)
    (h1 : ex1 p.url (requestBody p actor prompt modes) = .ok ⟨⟨⟨⟨text⟩ :: ps1⟩⟩ :: cs1⟩)
    (h2 : ex2 p.url (requestBody p actor prompt modes) = .ok ⟨⟨⟨⟨text⟩ :: ps2⟩⟩ :: cs2⟩) :
    GenerateContent ex1 p actor prompt modes = GenerateContent ex2 p actor prompt modes
      ∧ GenerateContent ex1 p actor prompt modes = (removeFirstLine text, none) := by
  rw [GenerateContent_ok ex1 p actor prompt modes _ h1,
    GenerateContent_ok ex2 p actor prompt modes _ h2]
  simp [extractResult]

theorem GenerateContent_first_part_only_witness :
    GenerateContent (fun _ _ => .ok ⟨[⟨⟨[⟨"```go\ncode"⟩]⟩⟩]⟩)
        (NewPromptHandler "u" "k" 1 1 1 1) "a" "t" ⟨false, false, false⟩
      = GenerateContent (fun _ _ => .ok ⟨[⟨⟨[⟨"```go\ncode"⟩, ⟨"other"⟩]⟩⟩, ⟨⟨[]⟩⟩]⟩)
        (NewPromptHandler "u" "k" 1 1 1 1) "a" "t" ⟨false, false, false⟩
      ∧ GenerateContent (fun _ _ => .ok ⟨[⟨⟨[⟨"```go\ncode"⟩]⟩⟩]⟩)
        (NewPromptHandler "u" "k" 1 1 1 1) "a" "t" ⟨false, false, false⟩
      = (removeFirstLine "```go\ncode", none) :=
  GenerateContent_first_part_only _ _ _ _ _ _ "```go\ncode" [] [⟨"other"⟩] [] [⟨⟨[]⟩⟩] rfl rfl

/-- C6: every request built on a handler made by `NewPromptHandler` carries the
four sampling parameters given at construction, unchanged and unswapped, an
empty stop-sequence list, and exactly one content block with exactly one part. -/
theorem requestBody_carries_parameters (baseUrl apiKey : String) (temperature topP : Float)
    (maxOutputTokens topK : Int) (actor prompt : String) (modes : Modes) :
    let rb := requestBody
      (NewPromptHandler baseUrl apiKey temperature topP maxOutputTokens topK) actor prompt modes
    rb.GenerationConfig.Temperature = temperature
      ∧ rb.GenerationConfig.TopP = topP
      ∧ rb.GenerationConfig.MaxOutputTokens = maxOutputTokens
      ∧ rb.GenerationConfig.TopK = topK
      ∧ rb.GenerationConfig.StopSequences = []
      ∧ rb.Contents.length = 1
      ∧ ∀ c ∈ rb.Contents, c.Parts.length = 1 := by
  simp [requestBody, NewPromptHandler]

/-! ## Claims on the orchestrating layer -/

/-- C9 (as stated, refuted): for prompt `"p"` and content `"c"` the task text is
not the prompt with just `"\nContent: \n\n" ++ content` appended. -/
theorem attachContent_not_plain_suffix :
    attachContent "p" "c" ≠ "p" ++ ("\nContent: \n\n" ++ "c") := by
  decide

/-- C9 (amended): with non-empty content the task text is the prompt followed by
a full stop and `"\nContent: \n\n" ++ content`; with empty content it is the
prompt unchanged. -/
theorem attachContent_spec (prompt content : String) :
    (content ≠ "" → attachContent prompt content = prompt ++ ".\nContent: \n\n" ++ content)
      ∧ (content = "" → attachContent prompt content = prompt) := by
  constructor
  · intro h
    simp [attachContent, h]
  · intro h
    simp [attachContent, h]

theorem attachContent_spec_witness :
    attachContent "p" "c" = "p" ++ ".\nContent: \n\n" ++ "c" ∧ attachContent "p" "" = "p" :=
  ⟨(attachContent_spec "p" "c").1 (by decide), (attachContent_spec "p" "").2 rfl⟩

/-! ## The matches of the cleanup pattern -/

theorem isSpace_of_isBlank {c : Char} (h : isBlank c = true) : isSpace c = true := by
  simp only [isBlank, Bool.or_eq_true, decide_eq_true_eq] at h
  simp only [isSpace, Bool.or_eq_true, decide_eq_true_eq]
  tauto

theorem isBlank_ne_newline {c : Char} (h : isBlank c = true) : c ≠ '\n' := by
  intro e
  subst e
  revert h
  decide

theorem isBlank_of_isSpace {c : Char} (h : isSpace c = true) (hc : c ≠ '\n') :
    isBlank c = true := by
  simp only [isSpace, Bool.or_eq_true, decide_eq_true_eq] at h
  simp only [isBlank, Bool.or_eq_true, decide_eq_true_eq]
  tauto

theorem endLine_ends_lineEnd (b : Option Char) (r : List Char) (hr : LineEnd r) :
    Regex.endLine.ends ⟨b, r⟩ = [⟨b, r⟩] := by
  rcases hr with rfl | ⟨t, rfl⟩ <;> simp [Regex.ends]

theorem endLine_ends_cons (b : Option Char) (c : Char) (t : List Char) (hc : c ≠ '\n') :
    Regex.endLine.ends ⟨b, c :: t⟩ = [] := by
  simp [Regex.ends, hc]

theorem ends_seq_chars (w : List Char) (hw : '\n' ∉ w) (b : Option Char) (l r : List Char)
    (hl : '\n' ∉ l) (hr : LineEnd r) :
    (Regex.seq (w.map Regex.char) .endLine).ends ⟨b, l ++ r⟩
      = if l = w then [⟨lastOr b w, r⟩] else [] := by
  induction w generalizing b l with
  | nil =>
    cases l with
    | nil => simpa [Regex.seq, lastOr] using endLine_ends_lineEnd b r hr
    | cons c l =>
      have hc : c ≠ '\n' := fun e => hl (by simp [e])
      simpa [Regex.seq] using endLine_ends_cons b c (l ++ r) hc
  | cons x w ih =>
    have hx : x ≠ '\n' := fun e => hw (by simp [e])
    have hw2 : '\n' ∉ w := fun e => hw (by simp [e])
    cases l with
    | nil =>
      rcases hr with rfl | ⟨t, rfl⟩
      · simp [Regex.seq, Regex.ends]
      · simp [Regex.seq, Regex.ends, Ne.symm hx]
    | cons c l =>
      have hl2 : '\n' ∉ l := fun e => hl (by simp [e])
      by_cases hcx : c = x
      · subst hcx
        simp only [List.map_cons, Regex.seq, Regex.ends, List.cons_append, if_true,
          List.flatMap_cons, List.flatMap_nil, List.append_nil]
        rw [ih hw2 (some c) l hl2]
        simp [lastOr]
      · simp [Regex.seq, Regex.ends, hcx]

theorem ends_cat_beginLine (re : Regex) (cur : Cursor) :
    (Regex.cat .beginLine re).ends cur
      = if cur.before = none ∨ cur.before = some '\n' then re.ends cur else [] := by
  by_cases hb : cur.before = none ∨ cur.before = some '\n' <;> simp [Regex.ends, hb]

theorem cleanPattern_ends (b : Option Char) (l r : List Char) (hl : '\n' ∉ l) (hr : LineEnd r) :
    cleanPattern.ends ⟨b, l ++ r⟩
      = if b = none ∨ b = some '\n' then
          (if l = "```go".data then [⟨some 'o', r⟩] else [])
            ++ (if l = "```".data then [⟨some '\x60', r⟩] else [])
            ++ blankEnds b (l ++ r)
        else [] := by
  have h1 := ends_seq_chars "```go".data (by decide) b l r hl hr
  have h2 := ends_seq_chars "```".data (by decide) b l r hl hr
  have h3 : (Regex.cat .spaceStar .endLine).ends ⟨b, l ++ r⟩ = blankEnds b (l ++ r) := by
    simp [Regex.ends, blankEnds]
  have hp : cleanPattern.ends ⟨b, l ++ r⟩
      = ((Regex.cat .beginLine (Regex.seq ("```go".data.map Regex.char) .endLine)).ends
            ⟨b, l ++ r⟩
          ++ (Regex.cat .beginLine (Regex.seq ("```".data.map Regex.char) .endLine)).ends
            ⟨b, l ++ r⟩)
        ++ (Regex.cat .beginLine (Regex.cat .spaceStar .endLine)).ends ⟨b, l ++ r⟩ := rfl
  rw [hp, ends_cat_beginLine, ends_cat_beginLine, ends_cat_beginLine, h1, h2, h3]
  by_cases hb : b = none ∨ b = some '\n'
  · simp only [if_pos hb]
    rfl
  · simp [if_neg hb]

theorem cleanPattern_ends_midline (c : Char) (s : List Char) (hc : c ≠ '\n') :
    cleanPattern.ends ⟨some c, s⟩ = [] := by
  have hp : cleanPattern.ends ⟨some c, s⟩
      = ((Regex.cat .beginLine (Regex.seq ("```go".data.map Regex.char) .endLine)).ends
            ⟨some c, s⟩
          ++ (Regex.cat .beginLine (Regex.seq ("```".data.map Regex.char) .endLine)).ends
            ⟨some c, s⟩)
        ++ (Regex.cat .beginLine (Regex.cat .spaceStar .endLine)).ends ⟨some c, s⟩ := rfl
  rw [hp, ends_cat_beginLine, ends_cat_beginLine, ends_cat_beginLine]
  simp [hc]

theorem exists_line (s : List Char) : ∃ l r, s = l ++ r ∧ '\n' ∉ l ∧ LineEnd r := by
  induction s with
  | nil => exact ⟨[], [], rfl, by simp, Or.inl rfl⟩
  | cons c t ih =>
    by_cases hc : c = '\n'
    · exact ⟨[], c :: t, rfl, by simp, Or.inr ⟨t, by rw [hc]⟩⟩
    · obtain ⟨l, r, hs, hl, hr⟩ := ih
      refine ⟨c :: l, r, by simp [hs], ?_, hr⟩
      simp only [List.mem_cons, not_or]
      exact ⟨fun e => hc e.symm, hl⟩

theorem mem_spaceStarEnds (b : Option Char) (s : List Char) (e : Cursor)
    (he : e ∈ spaceStarEnds b s) : e = ⟨b, s⟩ ∨ e.rest.length < s.length := by
  induction s generalizing b with
  | nil =>
    left
    simpa [spaceStarEnds] using he
  | cons c t ih =>
    unfold spaceStarEnds at he
    split at he
    · rcases List.mem_append.mp he with h | h
      · right
        rcases ih (some c) h with rfl | h2
        · simp
        · simp only [List.length_cons]
          omega
      · left
        simpa using h
    · left
      simpa using he

theorem mem_endLine_ends (cur e : Cursor) (he : e ∈ Regex.endLine.ends cur) : e = cur := by
  obtain ⟨b, s⟩ := cur
  cases s with
  | nil => simpa [Regex.ends] using he
  | cons c t =>
    by_cases hc : c = '\n'
    · simpa [Regex.ends, hc] using he
    · simp [Regex.ends, hc] at he

theorem mem_blankEnds (b : Option Char) (s : List Char) (e : Cursor)
    (he : e ∈ blankEnds b s) : e = ⟨b, s⟩ ∨ e.rest.length < s.length := by
  simp only [blankEnds, List.mem_flatMap] at he
  obtain ⟨a, ha, hea⟩ := he
  rw [mem_endLine_ends a e hea]
  exact mem_spaceStarEnds b s a ha

theorem blankEnds_cons_space (b : Option Char) (c : Char) (t : List Char)
    (hc : isSpace c = true) :
    blankEnds b (c :: t) = blankEnds (some c) t ++ Regex.endLine.ends ⟨b, c :: t⟩ := by
  simp [blankEnds, spaceStarEnds, hc]

theorem blankEnds_cons_not_space (b : Option Char) (c : Char) (t : List Char)
    (hc : isSpace c = false) : blankEnds b (c :: t) = [] := by
  have hn : c ≠ '\n' := by
    intro e
    subst e
    revert hc
    decide
  simp [blankEnds, spaceStarEnds, hc, Regex.ends, hn]

theorem blankEnds_not_blank (b : Option Char) (l r : List Char) (hl : '\n' ∉ l)
    (hnb : l.all isBlank = false) : blankEnds b (l ++ r) = [] := by
  induction l generalizing b with
  | nil => simp at hnb
  | cons x l ih =>
    have hx : x ≠ '\n' := fun e => hl (by simp [e])
    have hl2 : '\n' ∉ l := fun e => hl (by simp [e])
    by_cases hs : isSpace x = true
    · have hbx : isBlank x = true := isBlank_of_isSpace hs hx
      have hnb2 : l.all isBlank = false := by
        simpa [List.all_cons, hbx] using hnb
      rw [List.cons_append, blankEnds_cons_space b x _ hs, ih (some x) hl2 hnb2,
        endLine_ends_cons b x _ hx]
      rfl
    · rw [List.cons_append, blankEnds_cons_not_space b x _ (by simpa using hs)]

theorem blankEnds_blank_last (b : Option Char) (l : List Char) (hb : l.all isBlank = true) :
    (blankEnds b l).head? = some ⟨lastOr b l, []⟩ := by
  induction l generalizing b with
  | nil => simp [blankEnds, spaceStarEnds, Regex.ends, lastOr]
  | cons x l ih =>
    simp only [List.all_cons, Bool.and_eq_true] at hb
    rw [blankEnds_cons_space b x _ (isSpace_of_isBlank hb.1), List.head?_append, ih (some x) hb.2]
    simp [lastOr]

theorem blankEnds_blank_cons (b : Option Char) (l t : List Char) (hb : l.all isBlank = true) :
    (blankEnds b (l ++ '\n' :: t)).head?
      = match (blankEnds (some '\n') t).head? with
        | some e => some e
        | none => some ⟨lastOr b l, '\n' :: t⟩ := by
  induction l generalizing b with
  | nil =>
    rw [List.nil_append, blankEnds_cons_space b '\n' t (by decide), List.head?_append,
      endLine_ends_lineEnd b _ (Or.inr ⟨t, rfl⟩)]
    cases (blankEnds (some '\n') t).head? <;> simp [lastOr]
  | cons x l ih =>
    simp only [List.all_cons, Bool.and_eq_true] at hb
    rw [List.cons_append, blankEnds_cons_space b x _ (isSpace_of_isBlank hb.1),
      List.head?_append, ih (some x) hb.2, endLine_ends_cons b x _ (isBlank_ne_newline hb.1)]
    cases (blankEnds (some '\n') t).head? <;> simp [lastOr]

theorem lastOr_blank (b : Option Char) (x : Char) (l : List Char)
    (hb : (x :: l).all isBlank = true) :
    ∃ d, lastOr b (x :: l) = some d ∧ d ≠ '\n' := by
  induction l generalizing b x with
  | nil =>
    simp only [List.all_cons, List.all_nil, Bool.and_true] at hb
    exact ⟨x, rfl, isBlank_ne_newline hb⟩
  | cons y l ih =>
    simp only [List.all_cons, Bool.and_eq_true] at hb
    have := ih (some x) y (by simp [List.all_cons, hb.2.1, hb.2.2])
    simpa [lastOr] using this

/-! ## The deletion loop -/

theorem deleteMatches_nil (re : Regex) (f : Nat) (b : Option Char) :
    deleteMatches re f ⟨b, []⟩ = [] := by
  cases f with
  | zero => rfl
  | succ f =>
    rw [deleteMatches]
    cases re.matchAt ⟨b, []⟩ <;> simp

theorem deleteMatches_skip (re : Regex) (f : Nat) (cur stop : Cursor)
    (hm : re.matchAt cur = some stop) (hlt : stop.rest.length < cur.rest.length) :
    deleteMatches re (f + 1) cur = deleteMatches re f stop := by
  rw [deleteMatches]
  simp only [hm, if_pos hlt]

theorem deleteMatches_copy (re : Regex) (f : Nat) (b : Option Char) (c : Char) (t : List Char)
    (hm : ∀ stop, re.matchAt ⟨b, c :: t⟩ = some stop → ¬ stop.rest.length < (c :: t).length) :
    deleteMatches re (f + 1) ⟨b, c :: t⟩ = c :: deleteMatches re f ⟨some c, t⟩ := by
  rw [deleteMatches]
  cases h : re.matchAt ⟨b, c :: t⟩ with
  | none => rfl
  | some stop =>
    simp only
    rw [if_neg (hm stop h)]

theorem deleteMatches_fuel (re : Regex) (f g : Nat) (cur : Cursor)
    (hf : cur.rest.length < f) (hg : cur.rest.length < g) :
    deleteMatches re f cur = deleteMatches re g cur := by
  induction f generalizing g cur with
  | zero => omega
  | succ f ih =>
    cases g with
    | zero => omega
    | succ g =>
      by_cases hs : ∃ stop, re.matchAt cur = some stop ∧ stop.rest.length < cur.rest.length
      · obtain ⟨stop, hm, hlt⟩ := hs
        rw [deleteMatches_skip re f cur stop hm hlt, deleteMatches_skip re g cur stop hm hlt]
        exact ih g stop (by omega) (by omega)
      · obtain ⟨b, s⟩ := cur
        cases s with
        | nil => rw [deleteMatches_nil, deleteMatches_nil]
        | cons c t =>
          have hm : ∀ stop, re.matchAt ⟨b, c :: t⟩ = some stop →
              ¬ stop.rest.length < (c :: t).length := fun stop h hlt => hs ⟨stop, h, hlt⟩
          simp only [List.length_cons] at hf hg
          rw [deleteMatches_copy re f b c t hm, deleteMatches_copy re g b c t hm,
            ih g ⟨some c, t⟩ (by simp only; omega) (by simp only; omega)]

theorem cleanFrom_nil (b : Option Char) : cleanFrom ⟨b, []⟩ = [] :=
  deleteMatches_nil _ _ _

theorem cleanFrom_skip (cur stop : Cursor) (hm : cleanPattern.matchAt cur = some stop)
    (hlt : stop.rest.length < cur.rest.length) : cleanFrom cur = cleanFrom stop := by
  unfold cleanFrom
  rw [deleteMatches_skip _ _ cur stop hm hlt]
  exact deleteMatches_fuel _ _ _ _ hlt (by omega)

theorem cleanFrom_copy_none (b : Option Char) (c : Char) (t : List Char)
    (hm : cleanPattern.matchAt ⟨b, c :: t⟩ = none) :
    cleanFrom ⟨b, c :: t⟩ = c :: cleanFrom ⟨some c, t⟩ := by
  unfold cleanFrom
  rw [deleteMatches_copy _ _ b c t (by simp [hm])]
  rfl

theorem cleanFrom_copy_empty (b : Option Char) (c : Char) (t : List Char) (stop : Cursor)
    (hm : cleanPattern.matchAt ⟨b, c :: t⟩ = some stop)
    (hge : ¬ stop.rest.length < (c :: t).length) :
    cleanFrom ⟨b, c :: t⟩ = c :: cleanFrom ⟨some c, t⟩ := by
  unfold cleanFrom
  rw [deleteMatches_copy _ _ b c t (by
    intro stop2 h2
    rw [hm] at h2
    cases h2
    exact hge)]
  rfl

theorem matchAt_midline (c : Char) (s : List Char) (hc : c ≠ '\n') :
    cleanPattern.matchAt ⟨some c, s⟩ = none := by
  simp [Regex.matchAt, cleanPattern_ends_midline c s hc]

theorem cleanFrom_midline_last (c : Char) (l : List Char) (hc : c ≠ '\n') (hl : '\n' ∉ l) :
    cleanFrom ⟨some c, l⟩ = l := by
  induction l generalizing c with
  | nil => exact cleanFrom_nil _
  | cons x l ih =>
    have hx : x ≠ '\n' := fun e => hl (by simp [e])
    have hl2 : '\n' ∉ l := fun e => hl (by simp [e])
    rw [cleanFrom_copy_none _ x l (matchAt_midline c _ hc), ih x hx hl2]

theorem cleanFrom_midline_cons (c : Char) (l t : List Char) (hc : c ≠ '\n') (hl : '\n' ∉ l) :
    cleanFrom ⟨some c, l ++ '\n' :: t⟩ = l ++ '\n' :: cleanFrom ⟨some '\n', t⟩ := by
  induction l generalizing c with
  | nil => exact cleanFrom_copy_none _ '\n' t (matchAt_midline c _ hc)
  | cons x l ih =>
    have hx : x ≠ '\n' := fun e => hl (by simp [e])
    have hl2 : '\n' ∉ l := fun e => hl (by simp [e])
    rw [List.cons_append, cleanFrom_copy_none _ x _ (matchAt_midline c _ hc), ih x hx hl2]
    rfl

theorem matchAt_kept_line (b : Option Char) (l r : List Char) (hl : '\n' ∉ l) (hr : LineEnd r)
    (hk : droppedLine l = false) : cleanPattern.matchAt ⟨b, l ++ r⟩ = none := by
  simp only [droppedLine, Bool.or_eq_false_iff, beq_eq_false_iff_ne] at hk
  obtain ⟨⟨h1, h2⟩, h3⟩ := hk
  rw [Regex.matchAt, cleanPattern_ends b l r hl hr, blankEnds_not_blank b l r hl h3]
  simp [h1, h2]

theorem cleanFrom_kept_last (b : Option Char) (l : List Char) (hl : '\n' ∉ l)
    (hk : droppedLine l = false) : cleanFrom ⟨b, l⟩ = l := by
  have hm := matchAt_kept_line b l [] hl (Or.inl rfl) hk
  rw [List.append_nil] at hm
  cases l with
  | nil => simp [droppedLine] at hk
  | cons x l =>
    have hx : x ≠ '\n' := fun e => hl (by simp [e])
    have hl2 : '\n' ∉ l := fun e => hl (by simp [e])
    rw [cleanFrom_copy_none b x l hm, cleanFrom_midline_last x l hx hl2]

theorem cleanFrom_kept_cons (b : Option Char) (l t : List Char) (hl : '\n' ∉ l)
    (hk : droppedLine l = false) :
    cleanFrom ⟨b, l ++ '\n' :: t⟩ = l ++ '\n' :: cleanFrom ⟨some '\n', t⟩ := by
  have hm := matchAt_kept_line b l ('\n' :: t) hl (Or.inr ⟨t, rfl⟩) hk
  cases l with
  | nil => simp [droppedLine] at hk
  | cons x l =>
    have hx : x ≠ '\n' := fun e => hl (by simp [e])
    have hl2 : '\n' ∉ l := fun e => hl (by simp [e])
    rw [List.cons_append] at hm ⊢
    rw [cleanFrom_copy_none b x _ hm, cleanFrom_midline_cons x l t hx hl2]
    rfl

theorem blank_not_fence (l : List Char) (hb : l.all isBlank = true) :
    l ≠ "```go".data ∧ l ≠ "```".data := by
  constructor <;>
  · intro e
    subst e
    revert hb
    decide

theorem matchAt_fence (b : Option Char) (hb : AtLineStart b) (l r : List Char)
    (hl : l = "```".data ∨ l = "```go".data) (hr : LineEnd r) :
    ∃ d, d ≠ '\n' ∧ cleanPattern.matchAt ⟨b, l ++ r⟩ = some ⟨some d, r⟩ := by
  have hnl : '\n' ∉ l := by
    rcases hl with rfl | rfl <;> decide
  rw [Regex.matchAt, cleanPattern_ends b l r hnl hr,
    if_pos (show b = none ∨ b = some '\n' from hb)]
  rcases hl with rfl | rfl
  · exact ⟨'\x60', by decide, by simp⟩
  · exact ⟨'o', by decide, by simp⟩

theorem cleanFrom_fence_last (b : Option Char) (hb : AtLineStart b) (l : List Char)
    (hl : l = "```".data ∨ l = "```go".data) : cleanFrom ⟨b, l⟩ = [] := by
  obtain ⟨d, _, hm⟩ := matchAt_fence b hb l [] hl (Or.inl rfl)
  rw [List.append_nil] at hm
  have hlen : 0 < l.length := by
    rcases hl with rfl | rfl <;> decide
  rw [cleanFrom_skip ⟨b, l⟩ ⟨some d, []⟩ hm (by simpa using hlen), cleanFrom_nil]

theorem cleanFrom_fence_cons (b : Option Char) (hb : AtLineStart b) (l t : List Char)
    (hl : l = "```".data ∨ l = "```go".data) :
    cleanFrom ⟨b, l ++ '\n' :: t⟩ = '\n' :: cleanFrom ⟨some '\n', t⟩ := by
  obtain ⟨d, hd, hm⟩ := matchAt_fence b hb l ('\n' :: t) hl (Or.inr ⟨t, rfl⟩)
  have hlen : 0 < l.length := by
    rcases hl with rfl | rfl <;> decide
  rw [cleanFrom_skip _ _ hm (by simp only [List.length_append]; omega)]
  exact cleanFrom_midline_cons d [] t hd (by simp)

theorem matchAt_blank (b : Option Char) (hb : AtLineStart b) (l r : List Char)
    (hl : l.all isBlank = true) (hr : LineEnd r) :
    cleanPattern.matchAt ⟨b, l ++ r⟩ = (blankEnds b (l ++ r)).head? := by
  have hnl : '\n' ∉ l := by
    intro h
    have := List.all_eq_true.mp hl _ h
    revert this
    decide
  obtain ⟨h1, h2⟩ := blank_not_fence l hl
  rw [Regex.matchAt, cleanPattern_ends b l r hnl hr,
    if_pos (show b = none ∨ b = some '\n' from hb)]
  simp [h1, h2]

theorem cleanFrom_blank_last (b : Option Char) (hb : AtLineStart b) (l : List Char)
    (hl : l.all isBlank = true) : cleanFrom ⟨b, l⟩ = [] := by
  cases l with
  | nil => exact cleanFrom_nil b
  | cons x l =>
    have hm := matchAt_blank b hb (x :: l) [] hl (Or.inl rfl)
    rw [List.append_nil, blankEnds_blank_last b _ hl] at hm
    rw [cleanFrom_skip _ _ hm (by simp), cleanFrom_nil]

theorem matchAt_of_blankEnds (b : Option Char) (hb : AtLineStart b) (t : List Char) (e : Cursor)
    (he : (blankEnds b t).head? = some e) : cleanPattern.matchAt ⟨b, t⟩ = some e := by
  obtain ⟨l, r, hs, hl, hr⟩ := exists_line t
  subst hs
  by_cases hbl : l.all isBlank = true
  · rw [matchAt_blank b hb l r hbl hr, he]
  · rw [blankEnds_not_blank b l r hl (by simpa using hbl)] at he
    simp at he

theorem cleanFrom_blank_cons (b : Option Char) (hb : AtLineStart b) (l t : List Char)
    (hl : l.all isBlank = true) :
    cleanFrom ⟨b, l ++ '\n' :: t⟩ = cleanFrom ⟨some '\n', t⟩
      ∨ cleanFrom ⟨b, l ++ '\n' :: t⟩ = '\n' :: cleanFrom ⟨some '\n', t⟩ := by
  have hm := matchAt_blank b hb l ('\n' :: t) hl (Or.inr ⟨t, rfl⟩)
  rw [blankEnds_blank_cons b l t hl] at hm
  cases he : (blankEnds (some '\n') t).head? with
  | some e =>
    left
    rw [he] at hm
    simp only at hm
    have hmem : e ∈ blankEnds (some '\n') t := List.mem_of_mem_head? he
    have hskip : cleanFrom ⟨b, l ++ '\n' :: t⟩ = cleanFrom e := by
      apply cleanFrom_skip _ _ hm
      rcases mem_blankEnds _ _ _ hmem with rfl | hlt
      · simp only [List.length_append, List.length_cons]
        omega
      · simp only [List.length_append, List.length_cons]
        omega
    rw [hskip]
    rcases mem_blankEnds _ _ _ hmem with rfl | hlt
    · rfl
    · exact (cleanFrom_skip ⟨some '\n', t⟩ e
        (matchAt_of_blankEnds _ (Or.inr rfl) t e he) hlt).symm
  | none =>
    right
    rw [he] at hm
    simp only at hm
    cases l with
    | nil =>
      exact cleanFrom_copy_empty b '\n' t _ hm (by simp [lastOr])
    | cons x l =>
      obtain ⟨d, hd, hdn⟩ := lastOr_blank b x l hl
      rw [hd] at hm
      rw [cleanFrom_skip _ _ hm (by simp only [List.length_append, List.length_cons]; omega)]
      exact cleanFrom_midline_cons d [] t hdn (by simp)

/-! ## Lines of the cleaned text -/

theorem nonEmptyLines_newline_cons (x : List Char) :
    nonEmptyLines ('\n' :: x) = nonEmptyLines x := by
  simp [nonEmptyLines, splitOnChar]

theorem nonEmptyLines_line_cons (l x : List Char) (hl : '\n' ∉ l) :
    nonEmptyLines (l ++ '\n' :: x) = (if l.isEmpty then [] else [l]) ++ nonEmptyLines x := by
  rw [nonEmptyLines, splitOnChar_append_sep _ _ _ hl]
  cases l <;> simp [nonEmptyLines]

theorem droppedLine_of_isEmpty (l : List Char) (h : l.isEmpty = true) : droppedLine l = true := by
  cases l with
  | nil => decide
  | cons c t => simp at h

/-- The lines of the cleaned text that are not empty are the lines of the text
that the pattern does not match, in the same order. -/
theorem nonEmptyLines_cleanFrom (s : List Char) (b : Option Char) (hb : AtLineStart b) :
    nonEmptyLines (cleanFrom ⟨b, s⟩)
      = (splitOnChar '\n' s).filter (fun l => !droppedLine l) := by
  obtain ⟨n, hn⟩ : ∃ n, s.length = n := ⟨_, rfl⟩
  induction n using Nat.strong_induction_on generalizing s b with
  | _ n ih =>
    obtain ⟨l, r, hs, hl, hr⟩ := exists_line s
    subst hs
    rcases hr with rfl | ⟨t, rfl⟩
    · rw [List.append_nil, splitOnChar_of_not_mem _ _ hl]
      by_cases hk : droppedLine l = true
      · have hc : cleanFrom ⟨b, l⟩ = [] := by
          simp only [droppedLine, Bool.or_eq_true, beq_iff_eq] at hk
          rcases hk with (h | h) | h
          · exact cleanFrom_fence_last b hb l (Or.inl h)
          · exact cleanFrom_fence_last b hb l (Or.inr h)
          · exact cleanFrom_blank_last b hb l h
        simp [hc, hk, nonEmptyLines, splitOnChar]
      · have hk2 : droppedLine l = false := by simpa using hk
        rw [cleanFrom_kept_last b l hl hk2, nonEmptyLines, splitOnChar_of_not_mem _ _ hl]
        have hne : l.isEmpty = false := by
          cases hl2 : l.isEmpty with
          | false => rfl
          | true => rw [droppedLine_of_isEmpty l hl2] at hk2; cases hk2
        simp [hk2, hne]
    · have iht := ih t.length (by rw [← hn]; simp; omega) t (some '\n') (Or.inr rfl) rfl
      rw [splitOnChar_append_sep _ _ _ hl, List.filter_cons]
      by_cases hk : droppedLine l = true
      · have hc : nonEmptyLines (cleanFrom ⟨b, l ++ '\n' :: t⟩)
            = nonEmptyLines (cleanFrom ⟨some '\n', t⟩) := by
          simp only [droppedLine, Bool.or_eq_true, beq_iff_eq] at hk
          rcases hk with (h | h) | h
          · rw [cleanFrom_fence_cons b hb l t (Or.inl h), nonEmptyLines_newline_cons]
          · rw [cleanFrom_fence_cons b hb l t (Or.inr h), nonEmptyLines_newline_cons]
          · rcases cleanFrom_blank_cons b hb l t h with h2 | h2
            · rw [h2]
            · rw [h2, nonEmptyLines_newline_cons]
        rw [hc, iht]
        simp [hk]
      · have hk2 : droppedLine l = false := by simpa using hk
        have hne : l.isEmpty = false := by
          cases hl2 : l.isEmpty with
          | false => rfl
          | true => rw [droppedLine_of_isEmpty l hl2] at hk2; cases hk2
        rw [cleanFrom_kept_cons b l t hl hk2, nonEmptyLines_line_cons _ _ hl, iht]
        simp [hk2, hne]

theorem cleanResultText_data (text : String) :
    (cleanResultText text).data = cleanFrom ⟨none, text.data⟩ := rfl

theorem mem_Split_iff (x l : String) :
    l ∈ Split x '\n' ↔ l.data ∈ splitOnChar '\n' x.data := by
  simp only [Split, List.mem_map]
  constructor
  · rintro ⟨a, ha, rfl⟩
    exact ha
  · intro h
    exact ⟨l.data, h, rfl⟩

theorem mem_nonEmptyLines (s l : List Char) :
    l ∈ nonEmptyLines s ↔ l ∈ splitOnChar '\n' s ∧ l ≠ [] := by
  simp [nonEmptyLines, List.mem_filter]

/-- A non-empty line is a line of the cleaned text exactly when it is a line of
the text that the pattern does not match. -/
theorem mem_lines_cleanResultText (text l : String) (hne : l ≠ "") :
    l ∈ Split (cleanResultText text) '\n'
      ↔ l ∈ Split text '\n' ∧ droppedLine l.data = false := by
  have hd : l.data ≠ [] := fun h => hne (String.ext h)
  have hcore := nonEmptyLines_cleanFrom text.data none (Or.inl rfl)
  rw [mem_Split_iff, mem_Split_iff, cleanResultText_data]
  constructor
  · intro h
    have hm : l.data ∈ nonEmptyLines (cleanFrom ⟨none, text.data⟩) :=
      (mem_nonEmptyLines _ _).mpr ⟨h, hd⟩
    rw [hcore, List.mem_filter] at hm
    exact ⟨hm.1, by simpa using hm.2⟩
  · rintro ⟨h1, h2⟩
    have hm : l.data ∈ (splitOnChar '\n' text.data).filter (fun l => !droppedLine l) :=
      List.mem_filter.mpr ⟨h1, by simp [h2]⟩
    rw [← hcore] at hm
    exact ((mem_nonEmptyLines _ _).mp hm).1

/-! ## Claims on `cleanResultText` -/

/-- C7: the lines of the output of `cleanResultText` contain no line that is
exactly a bare fence or a fence tagged `go`, and every input line that is a
fence followed by any other tag is a line of the output, unchanged. -/
theorem cleanResultText_fences (text : String) :
    "```" ∉ Split (cleanResultText text) '\n'
      ∧ "```go" ∉ Split (cleanResultText text) '\n'
      ∧ ∀ tag : String, tag ≠ "" → tag ≠ "go" → "```" ++ tag ∈ Split text '\n' →
          "```" ++ tag ∈ Split (cleanResultText text) '\n' := by
  refine ⟨?_, ?_, ?_⟩
  · intro h
    have := ((mem_lines_cleanResultText text "```" (by decide)).mp h).2
    revert this
    decide
  · intro h
    have := ((mem_lines_cleanResultText text "```go" (by decide)).mp h).2
    revert this
    decide
  · intro tag h1 h2 hmem
    have hd : tag.data ≠ [] := fun h => h1 (String.ext h)
    have hg : tag.data ≠ ['g', 'o'] := fun h => h2 (String.ext h)
    have hne : "```" ++ tag ≠ "" := by
      intro h
      have := congrArg String.length h
      simp at this
      exact absurd this.1 (by decide)
    refine (mem_lines_cleanResultText text _ hne).mpr ⟨hmem, ?_⟩
    have hdata : ("```" ++ tag).data = '\x60' :: '\x60' :: '\x60' :: tag.data := by
      simp
    rw [hdata]
    have hnb : isBlank '\x60' = false := by decide
    simp only [droppedLine, Bool.or_eq_false_iff, beq_eq_false_iff_ne, List.all_cons, hnb,
      Bool.false_and, and_true]
    constructor
    · intro h
      apply hd
      simpa using h
    · intro h
      apply hg
      simpa using h

theorem cleanResultText_fences_witness :
    "```" ∉ Split (cleanResultText "```python\ncode\n```\n```go") '\n'
      ∧ "```go" ∉ Split (cleanResultText "```python\ncode\n```\n```go") '\n'
      ∧ "```" ++ "python" ∈ Split (cleanResultText "```python\ncode\n```\n```go") '\n' :=
  ⟨(cleanResultText_fences "```python\ncode\n```\n```go").1,
    (cleanResultText_fences "```python\ncode\n```\n```go").2.1,
    (cleanResultText_fences "```python\ncode\n```\n```go").2.2 "python"
      (by decide) (by decide) (by decide)⟩

/-- C8 (as stated, refuted): an empty line between two lines stays (the text
`"a\n\nb"` is returned unchanged), and on an input with a bare fence line and a
whitespace-only line the output still contains an empty line. -/
theorem cleanResultText_leaves_empty_lines :
    cleanResultText "a\n\nb" = "a\n\nb"
      ∧ cleanResultText "```\n \t\nx" = "\n\nx"
      ∧ "" ∈ Split (cleanResultText "```\n \t\nx") '\n' := by
  decide

/-- C8 (amended): no line of the output of `cleanResultText` is a non-empty
line made up only of space, tab, form feed and carriage return characters. -/
theorem cleanResultText_no_blank_line (text l : String)
    (hmem : l ∈ Split (cleanResultText text) '\n') (hne : l ≠ "") :
    ¬ (l.data.all isBlank = true) := by
  intro hb
  have := ((mem_lines_cleanResultText text l hne).mp hmem).2
  simp [droppedLine, hb] at this

theorem cleanResultText_no_blank_line_witness : ¬ ("x".data.all isBlank = true) :=
  cleanResultText_no_blank_line "```\n \t\nx" "x" (by decide) (by decide)

/-- C10: the non-empty lines of the output of `cleanResultText` are, in the same
order and character for character, the lines of the input that are neither
a bare fence, nor a fence tagged `go`, nor made up only of space, tab, form feed
and carriage return characters. -/
theorem cleanResultText_payload_lines (text : String) :
    (Split (cleanResultText text) '\n').filter (fun l => l ≠ "")
      = (Split text '\n').filter
          (fun l => l ≠ "```" ∧ l ≠ "```go" ∧ ¬ (l.data.all isBlank = true)) := by
  have hcore := nonEmptyLines_cleanFrom text.data none (Or.inl rfl)
  have h1 : (Split (cleanResultText text) '\n').filter (fun l => l ≠ "")
      = (nonEmptyLines (cleanFrom ⟨none, text.data⟩)).map String.mk := by
    rw [Split, cleanResultText_data, nonEmptyLines, List.filter_map]
    congr 1
    apply List.filter_congr
    intro l _
    cases l <;> simp [String.ext_iff]
  have h2 : (Split text '\n').filter
        (fun l => l ≠ "```" ∧ l ≠ "```go" ∧ ¬ (l.data.all isBlank = true))
      = ((splitOnChar '\n' text.data).filter (fun l => !droppedLine l)).map String.mk := by
    rw [Split, List.filter_map]
    congr 1
    apply List.filter_congr
    intro l _
    have e1 : (String.mk l = "```") ↔ l = "```".data :=
      ⟨fun h => congrArg String.data h, fun h => String.ext h⟩
    have e2 : (String.mk l = "```go") ↔ l = "```go".data :=
      ⟨fun h => congrArg String.data h, fun h => String.ext h⟩
    have e3 : (l.all isBlank = false) ↔ ¬ (l.all isBlank = true) := by
      cases l.all isBlank <;> simp
    rw [Bool.eq_iff_iff]
    simp only [Function.comp, droppedLine, decide_eq_true_eq, Bool.not_eq_true',
      Bool.or_eq_false_iff, beq_eq_false_iff_ne, ne_eq, e1, e2, e3]
    tauto
  rw [h1, h2, hcore]

end PromptGenerator
